import Mathlib

/-!
Verification development for `ipa_rename.py` (blue-sky-r/home-bin).

The program normalizes `.ipa` filenames from `Info.plist` properties.  The
core pieces embedded here:

* `format_name`  — the token-based name formatter (`format_name` in the source),
  including the regex token scanner `re.findall('(%[A-Z][|a-zA-Z]+)', format)`,
  fallback-chain resolution, `str.replace(token, val, 1)` substitution,
  space replacement and extension appending;
* `ipa_readplist` — the archive metadata reader (zip open / testzip /
  entry scan / plist decode), with printed error messages modelled as
  structured `Msg` values;
* `print_plist`  — the property display function;
* the per-file body of the main loop (`processFile`), including the
  `ipa.replace(os.path.basename(ipa), format_name(...))` rename-target
  computation.

Python dictionaries are modelled as association lists (`List (String × String)`),
`dict.get(k, d)` as first-match lookup with default.  Machine-level library
calls (`zipfile`, `plistlib`) are modelled by the `Archive` structure carrying
their observable results.
-/

namespace IpaRename

/-! ### Character classes of the token regex `%[A-Z][|a-zA-Z]+` -/

/-- `[A-Z]` of the token regex. -/
def isUpperAZ (c : Char) : Bool := decide ('A' ≤ c) && decide (c ≤ 'Z')

/-- `[|a-zA-Z]` of the token regex. -/
def isTokChar (c : Char) : Bool :=
  c == '|' || (decide ('a' ≤ c) && decide (c ≤ 'z')) || (decide ('A' ≤ c) && decide (c ≤ 'Z'))

/-! ### The regex scanner

`re.findall('(%[A-Z][|a-zA-Z]+)', format)` performs a leftmost, greedy,
non-overlapping scan.  We model the scan as a segmentation of the input into
literal (unmatched) pieces and token (matched) pieces; the token list returned
by `re.findall` is the list of token segments in order.  On a failed match
attempt the engine advances by one character.  The scanner consumes at least
one character per step, so `s.length` is enough fuel; the out-of-fuel branch
is unreachable for `findSegs` below and is defined to keep the segmentation
total. -/

inductive Seg where
  | lit (cs : List Char)
  | tok (cs : List Char)
deriving DecidableEq, Repr

def Seg.text : Seg → List Char
  | .lit cs => cs
  | .tok cs => cs

def findSegsAux : Nat → List Char → List Seg
  | _, [] => []
  | 0, s => [Seg.lit s]
  | fuel+1, c :: rest =>
    if c = '%' then
      match rest with
      | [] => [Seg.lit [c]]
      | d :: rest2 =>
        if isUpperAZ d then
          if rest2.takeWhile isTokChar = [] then
            Seg.lit [c] :: findSegsAux fuel rest
          else
            Seg.tok (c :: d :: rest2.takeWhile isTokChar) ::
              findSegsAux fuel (rest2.dropWhile isTokChar)
        else Seg.lit [c] :: findSegsAux fuel rest
    else Seg.lit [c] :: findSegsAux fuel rest

def findSegs (s : List Char) : List Seg := findSegsAux s.length s

def segTokens (segs : List Seg) : List (List Char) :=
  segs.filterMap fun sg => match sg with | Seg.tok cs => some cs | Seg.lit _ => none

/-- The concatenated text of a segmentation. -/
def segsText (segs : List Seg) : List Char := (segs.map Seg.text).flatten

/-- Model of `re.findall('(%[A-Z][|a-zA-Z]+)', format)`. -/
def findTokens (s : List Char) : List (List Char) := segTokens (findSegs s)

/-! ### Python `str.replace` -/

def replFirstAux (pat rep : List Char) : List Char → List Char
  | [] => []
  | c :: rest =>
    if pat.isPrefixOf (c :: rest) then rep ++ (c :: rest).drop pat.length
    else c :: replFirstAux pat rep rest

/-- Python `s.replace(pat, rep, 1)`: replace the first (leftmost) occurrence
of `pat` in `s`; with an empty pattern, Python inserts `rep` at the front. -/
def replaceFirst (s pat rep : List Char) : List Char :=
  match pat with
  | [] => rep ++ s
  | _ :: _ => replFirstAux pat rep s

def replAllAux (pat rep : List Char) : Nat → List Char → List Char
  | _, [] => []
  | 0, s => s
  | fuel+1, c :: rest =>
    if pat.isPrefixOf (c :: rest) then rep ++ replAllAux pat rep fuel ((c :: rest).drop pat.length)
    else c :: replAllAux pat rep fuel rest

/-- Python `s.replace(pat, rep)`: replace all leftmost non-overlapping
occurrences.  With an empty pattern Python inserts `rep` before every
character and at the end (`'ab'.replace('', 'X') = 'XaXbX'`). -/
def replaceAll (s pat rep : List Char) : List Char :=
  match pat with
  | [] => rep ++ s.foldr (fun c acc => c :: (rep ++ acc)) []
  | _ :: _ => replAllAux pat rep s.length s

/-! ### The name formatter `format_name` -/

/-- A decoded property list: ordered string-keyed mapping (Python `dict`
from `plistlib.loads`; keys are unique in a real `dict`). -/
abbrev Plist := List (String × String)

/-- Python `plist.get(k, dflt)`. -/
def pget (pl : Plist) (k : String) (dflt : String) : String :=
  match pl.find? (fun kv => kv.1 == k) with
  | some kv => kv.2
  | none => dflt

/-- The fallback loop of `format_name`:
`for subtoken in token[1:].split('|'): val = plist.get(subtoken, empty); if val != empty: break`.
After the loop, `val` holds the last computed value.  The `[]` case never
arises (`str.split` always returns a non-empty list). -/
def resolveAlts (pl : Plist) (empty : String) : List (List Char) → String
  | [] => empty
  | [s] => pget pl (String.mk s) empty
  | s :: rest =>
    let val := pget pl (String.mk s) empty
    if val ≠ empty then val else resolveAlts pl empty rest

/-- Resolution of one token (including the leading marker `%`):
the `if '|' in token` branch of `format_name`. -/
def resolveTok (pl : Plist) (empty : String) (token : List Char) : String :=
  if token.contains '|' then resolveAlts pl empty ((token.drop 1).splitOn '|')
  else pget pl (String.mk (token.drop 1)) empty

/-- The substitution loop of `format_name`:
`for token in re.findall(...): ... name = name.replace(token, val, 1)`. -/
def substTokens (pl : Plist) (empty : String) : List Char → List (List Char) → List Char
  | name, [] => name
  | name, t :: ts =>
    substTokens pl empty (replaceFirst name t (resolveTok pl empty t).toList) ts

/-- `format_name(plist, format, empty='', space='_', ext='.ipa')` from the
source: substitute each found token, then `name.replace(' ', space) + ext`. -/
def format_name (pl : Plist) (format empty space ext : String) : String :=
  String.mk
    (replaceAll (substTokens pl empty format.toList (findTokens format.toList))
        [' '] space.toList ++ ext.toList)

/-- Default format string (`FORMAT` in the source). -/
def FORMAT : String := "%CFBundleName|CFBundleDisplayName-v%CFBundleVersion-ios%MinimumOSVersion"

/-- Major properties preset (`MAJOR` in the source). -/
def MAJOR : String := "MinimumOSVersion DTPlatformVersion CFBundleVersion CFBundleDisplayName CFBundleName"

/-- Plist filename suffix inside the ipa (`INFO` in the source). -/
def INFO : String := "/Info.plist"

/-! ### Property display: `print_plist` -/

/-- Is `needle` a contiguous sublist of the haystack? -/
def listInfix (needle : List Char) : List Char → Bool
  | [] => needle.isEmpty
  | c :: rest => needle.isPrefixOf (c :: rest) || listInfix needle rest

/-- Python `sub in s` (substring containment). -/
def strContains (s sub : String) : Bool := listInfix sub.toList s.toList

/-- `print_plist(plist, match='all', sep=' ')`: the list of printed
`"k: v"` lines.  `if sep in match` selects the exact-key-list branch;
otherwise every key with `match == 'all' or match in k` is printed with
`plist.get(k, '')`. -/
def print_plist (pl : Plist) (mtch : String) (sep : String) : List String :=
  if strContains mtch sep then
    (mtch.splitOn sep).map (fun k => k ++ ": " ++ pget pl k "")
  else
    ((pl.map Prod.fst).filter (fun k => mtch == "all" || strContains k mtch)).map
      (fun k => k ++ ": " ++ pget pl k "")

/-! ### The archive metadata reader `ipa_readplist`

`zipfile` and `plistlib` are library calls; an `Archive` carries their
observable results for the file at the given path:

* `openRes`  — outcome of `zipfile.ZipFile(ipa, 'r')`: success,
  `zipfile.BadZipFile`, or `OSError` (with its formatted detail);
* `testzip`  — result of `zip.testzip()`: the name of the first entry
  failing the CRC/header check, or `none` when all entries pass;
* `entries`  — `zip.infolist()` in container order; each entry carries its
  filename and the property list that `plistlib.loads` yields for its bytes.

Printed `error(code, par)` messages are modelled as structured `Msg` values
in the order they are printed. -/

inductive OpenRes where
  | ok
  | badZip
  | osErr (detail : String)
deriving DecidableEq, Repr

structure ZEntry where
  filename : String
  data : Plist
deriving DecidableEq, Repr

structure Archive where
  openRes : OpenRes
  testzip : Option String
  entries : List ZEntry
deriving DecidableEq, Repr

inductive Msg where
  | zipError (entry : String)      -- ERR 2: 'ZIP error:{}'
  | notFound (name : String)       -- ERR 3: '{} not found'
  | notValidIpa (name : String)    -- ERR 4: 'not valid IPA file:{}'
  | emptyPlist (name : String)     -- ERR 5: '{} returns empty property list'
  | errDetail (detail : String)    -- ERR 6: '{}'
deriving DecidableEq, Repr

/-- Python `zinfo.filename.endswith(plist)`. -/
def isPlistEntry (plist : String) (z : ZEntry) : Bool :=
  plist.toList.isSuffixOf z.filename.toList

/-- The entry scan of `ipa_readplist`: first entry whose filename ends with
`plist` wins; the `for ... else` prints `error(3, INFO)` (the global constant)
when nothing matches. -/
def scanEntries (entries : List ZEntry) (plist : String) : List Msg × Option Plist :=
  match entries.find? (isPlistEntry plist) with
  | some z => ([], some z.data)
  | none => ([Msg.notFound INFO], none)

/-- `ipa_readplist(ipa, plist)`: returns the printed messages and the value of
`root` (`none` exactly on the error paths).  Note the Python truthiness test
`err = zip.testzip(); if err:` — both `None` and the empty string count as
"no error". -/
def ipa_readplist (ar : Archive) (ipa plist : String) : List Msg × Option Plist :=
  match ar.openRes with
  | OpenRes.osErr d => ([Msg.errDetail d], none)
  | OpenRes.badZip => ([Msg.notValidIpa ipa], none)
  | OpenRes.ok =>
    match ar.testzip with
    | some e => if e = "" then scanEntries ar.entries plist else ([Msg.zipError e], none)
    | none => scanEntries ar.entries plist

/-! ### The per-file body of the main loop -/

inductive FileAction where
  | errorSkip
  | displayed (lines : List String)
  | dryRun (src dst : String)
  | renamed (src dst : String)
deriving DecidableEq, Repr

/-- `os.path.basename`: the part after the last `/`. -/
def basenameOf (s : String) : String :=
  String.mk ((s.toList.reverse.takeWhile (fun c => c ≠ '/')).reverse)

/-- The directory part complementary to `basenameOf` (up to and including the
last `/`). -/
def dirnameOf (s : String) : String :=
  String.mk ((s.toList.reverse.dropWhile (fun c => c ≠ '/')).reverse)

/-- Line 189 of the source:
`newname = ipa.replace(os.path.basename(ipa), format_name(plist, frm))` —
note `str.replace` replaces every occurrence of the basename. -/
def mkNewname (ipa : String) (pl : Plist) (frm : String) : String :=
  String.mk (replaceAll ipa.toList (basenameOf ipa).toList
    (format_name pl frm "" "_" ".ipa").toList)

/-- Python truthiness of the optional `-k` value (`if key:`). -/
def keyTruthy : Option String → Bool
  | some k => k != ""
  | none => false

/-- One iteration of the main loop for a filename argument `ipa`: read the
plist, report `error(5)` when `root` is `None`, otherwise display keys or
compute the rename.  Returns the printed messages and the action taken
(`renamed src dst` means `os.rename(src, dst)` is invoked). -/
def processFile (ar : Archive) (ipa : String) (key : Option String) (dry : Bool)
    (frm : String) : List Msg × FileAction :=
  match ipa_readplist ar ipa INFO with
  | (msgs, none) => (msgs ++ [Msg.emptyPlist ipa], FileAction.errorSkip)
  | (msgs, some pl) =>
    if key == some "major" then (msgs, FileAction.displayed (print_plist pl MAJOR " "))
    else if keyTruthy key then
      (msgs, FileAction.displayed (print_plist pl (key.getD "") " "))
    else
      (msgs, if dry then FileAction.dryRun ipa (mkNewname ipa pl frm)
             else FileAction.renamed ipa (mkNewname ipa pl frm))

/-! ### Typed property values

`plistlib.loads` yields values that are not only strings: numbers, booleans
and dates also occur.  `format_name` receives them unchanged; the comparison
`val != empty` is well-defined for any value, but `name.replace(token, val, 1)`
raises `TypeError` when `val` is not a string.  This variant of the formatter
carries the value types and the `TypeError`. -/

inductive PVal where
  | str (s : String)
  | int (n : Int)
  | boolean (b : Bool)
  | date (d : String)
deriving DecidableEq, Repr

abbrev TPlist := List (String × PVal)

/-- `plist.get(k, empty)` on a typed plist (the default is the `empty`
string parameter of `format_name`). -/
def tgetVal (pl : TPlist) (k : String) (empty : String) : PVal :=
  match pl.find? (fun kv => kv.1 == k) with
  | some kv => kv.2
  | none => PVal.str empty

/-- Python `val != empty` where `empty` is a string: values of a different
type are never equal to a string. -/
def pvalNeStr (v : PVal) (empty : String) : Bool :=
  match v with
  | PVal.str s => s != empty
  | _ => true

def resolveAltsT (pl : TPlist) (empty : String) : List (List Char) → PVal
  | [] => PVal.str empty
  | [s] => tgetVal pl (String.mk s) empty
  | s :: rest =>
    let v := tgetVal pl (String.mk s) empty
    if pvalNeStr v empty then v else resolveAltsT pl empty rest

def resolveTokT (pl : TPlist) (empty : String) (token : List Char) : PVal :=
  if token.contains '|' then resolveAltsT pl empty ((token.drop 1).splitOn '|')
  else tgetVal pl (String.mk (token.drop 1)) empty

/-- The substitution loop over a typed plist: `name.replace(token, val, 1)`
raises `TypeError` when the resolved value is not a string. -/
def substTokensT (pl : TPlist) (empty : String) :
    List Char → List (List Char) → Except String (List Char)
  | name, [] => Except.ok name
  | name, t :: ts =>
    match resolveTokT pl empty t with
    | PVal.str s => substTokensT pl empty (replaceFirst name t s.toList) ts
    | _ => Except.error "TypeError: replace() argument 2 must be str"

/-- `format_name` over a typed plist, propagating the `TypeError`. -/
def format_name_typed (pl : TPlist) (format empty space ext : String) :
    Except String String :=
  match substTokensT pl empty format.toList (findTokens format.toList) with
  | Except.ok name =>
    Except.ok (String.mk (replaceAll name [' '] space.toList ++ ext.toList))
  | Except.error e => Except.error e

/-- Keys with the string contents of their values (`PVal.str s ↦ s`,
placeholder for non-string values, which never arise under the hypotheses
this projection is used with). -/
def projStr (pl : TPlist) : Plist :=
  pl.map (fun kv => (kv.1, match kv.2 with | PVal.str s => s | _ => ""))

/-- Is the value a string? -/
def isStrVal : PVal → Bool
  | PVal.str _ => true
  | _ => false

/-! ### Specification-side formatter

Modelled from the spec's words (for the refinement claim about single-token
format specs): "output exactly equals the format spec with each token replaced
by its mapping value, spaces converted to the replacement character, plus the
extension appended" — a simultaneous substitution over the segmentation. -/

/-- Literal pieces stay; each token is replaced by the mapping value of its
body (the token text without the marker), the placeholder when absent. -/
def renderSpec (pl : Plist) (empty : String) (segs : List Seg) : List Char :=
  (segs.map fun sg =>
    match sg with
    | Seg.lit cs => cs
    | Seg.tok t => (pget pl (String.mk (t.drop 1)) empty).toList).flatten

/-- Modelled from the spec: simultaneous token substitution, then space
replacement, then the extension. -/
def specFormatName (pl : Plist) (format empty space ext : String) : String :=
  String.mk (replaceAll (renderSpec pl empty (findSegs format.toList))
    [' '] space.toList ++ ext.toList)

/-- A literal segment free of the marker character (used as a side condition:
every `%` of the format spec belongs to a token). -/
def segLitClean (sg : Seg) : Bool :=
  match sg with
  | Seg.lit cs => !(cs.contains '%')
  | Seg.tok _ => true

/-- Simultaneous substitution using the source's own per-token resolution
(`resolveTok`); agrees with `renderSpec` when every token is a single
(fallback-free) one. -/
def renderResolved (pl : Plist) (empty : String) (segs : List Seg) : List Char :=
  (segs.map fun sg =>
    match sg with
    | Seg.lit cs => cs
    | Seg.tok t => (resolveTok pl empty t).toList).flatten

/-! ## Lemmas about the scanner -/

theorem findSegsAux_nil (f : Nat) : findSegsAux f [] = [] := by
  cases f <;> rfl

theorem segsText_cons (sg : Seg) (segs : List Seg) :
    segsText (sg :: segs) = sg.text ++ segsText segs := by
  simp [segsText]

theorem length_dropWhile_le (p : Char → Bool) (l : List Char) :
    (l.dropWhile p).length ≤ l.length :=
  (List.dropWhile_suffix p).length_le

theorem findSegsAux_congr (f : Nat) : ∀ (g : Nat) (s : List Char),
    s.length ≤ f → s.length ≤ g → findSegsAux f s = findSegsAux g s := by
  induction f with
  | zero =>
    intro g s hf _
    have hs : s = [] := List.eq_nil_of_length_eq_zero (Nat.le_zero.mp hf)
    subst hs
    simp [findSegsAux_nil]
  | succ f ih =>
    intro g s hf hg
    cases s with
    | nil => simp [findSegsAux_nil]
    | cons c rest =>
      cases g with
      | zero => simp at hg
      | succ g =>
        have hf' : rest.length ≤ f := Nat.succ_le_succ_iff.mp (by simpa using hf)
        have hg' : rest.length ≤ g := Nat.succ_le_succ_iff.mp (by simpa using hg)
        by_cases hc : c = '%'
        · subst hc
          cases rest with
          | nil => rfl
          | cons d rest2 =>
            have hdw : (rest2.dropWhile isTokChar).length ≤ rest2.length :=
              length_dropWhile_le _ _
            have hr2f : rest2.length ≤ f := by
              simp only [List.length_cons] at hf'; omega
            have hr2g : rest2.length ≤ g := by
              simp only [List.length_cons] at hg'; omega
            have h2f : (rest2.dropWhile isTokChar).length ≤ f := le_trans hdw hr2f
            have h2g : (rest2.dropWhile isTokChar).length ≤ g := le_trans hdw hr2g
            by_cases hd : isUpperAZ d
            · by_cases ht : rest2.takeWhile isTokChar = []
              · simp [findSegsAux, hd, ht, ih g (d :: rest2) hf' hg']
              · simp [findSegsAux, hd, ht, ih g (rest2.dropWhile isTokChar) h2f h2g]
            · simp [findSegsAux, hd, ih g (d :: rest2) hf' hg']
        · simp [findSegsAux, hc, ih g rest hf' hg']

theorem findSegs_cons_ne (c : Char) (s : List Char) (hc : c ≠ '%') :
    findSegs (c :: s) = Seg.lit [c] :: findSegs s := by
  simp [findSegs, findSegsAux, hc]

theorem findSegs_pct_one : findSegs ['%'] = [Seg.lit ['%']] := rfl

theorem findSegs_pct_noUpper (d : Char) (rest2 : List Char) (hd : ¬ isUpperAZ d) :
    findSegs ('%' :: d :: rest2) = Seg.lit ['%'] :: findSegs (d :: rest2) := by
  simp [findSegs, findSegsAux, hd]

theorem findSegs_pct_emptyRun (d : Char) (rest2 : List Char) (hd : isUpperAZ d)
    (ht : rest2.takeWhile isTokChar = []) :
    findSegs ('%' :: d :: rest2) = Seg.lit ['%'] :: findSegs (d :: rest2) := by
  simp [findSegs, findSegsAux, hd, ht]

theorem findSegs_pct_tok (d : Char) (rest2 : List Char) (hd : isUpperAZ d)
    (ht : rest2.takeWhile isTokChar ≠ []) :
    findSegs ('%' :: d :: rest2) =
      Seg.tok ('%' :: d :: rest2.takeWhile isTokChar) ::
        findSegs (rest2.dropWhile isTokChar) := by
  have hcg : findSegsAux (rest2.length + 1) (rest2.dropWhile isTokChar) =
      findSegsAux (rest2.dropWhile isTokChar).length (rest2.dropWhile isTokChar) :=
    findSegsAux_congr _ _ _ (le_trans (length_dropWhile_le _ _) (Nat.le_succ _)) le_rfl
  simp [findSegs, findSegsAux, hd, ht, hcg]

theorem segsText_findSegsAux (f : Nat) : ∀ s : List Char, segsText (findSegsAux f s) = s := by
  induction f with
  | zero =>
    intro s
    cases s <;> simp [findSegsAux, segsText, Seg.text]
  | succ f ih =>
    intro s
    cases s with
    | nil => simp [findSegsAux_nil, segsText]
    | cons c rest =>
      by_cases hc : c = '%'
      · subst hc
        cases rest with
        | nil => simp [findSegsAux, segsText, Seg.text]
        | cons d rest2 =>
          by_cases hd : isUpperAZ d
          · by_cases ht : rest2.takeWhile isTokChar = []
            · rw [show findSegsAux (f+1) ('%' :: d :: rest2) =
                    Seg.lit ['%'] :: findSegsAux f (d :: rest2) by
                  simp [findSegsAux, hd, ht]]
              rw [segsText_cons, ih]
              rfl
            · rw [show findSegsAux (f+1) ('%' :: d :: rest2) =
                    Seg.tok ('%' :: d :: rest2.takeWhile isTokChar) ::
                      findSegsAux f (rest2.dropWhile isTokChar) by
                  simp [findSegsAux, hd, ht]]
              rw [segsText_cons, ih]
              show '%' :: d :: (rest2.takeWhile isTokChar ++ rest2.dropWhile isTokChar) = _
              rw [List.takeWhile_append_dropWhile]
          · rw [show findSegsAux (f+1) ('%' :: d :: rest2) =
                  Seg.lit ['%'] :: findSegsAux f (d :: rest2) by
                simp [findSegsAux, hd]]
            rw [segsText_cons, ih]
            rfl
      · rw [show findSegsAux (f+1) (c :: rest) = Seg.lit [c] :: findSegsAux f rest by
            simp [findSegsAux, hc]]
        rw [segsText_cons, ih]
        rfl

theorem segsText_findSegs (s : List Char) : segsText (findSegs s) = s :=
  segsText_findSegsAux _ s

theorem mem_takeWhile_sat {p : Char → Bool} : ∀ (l : List Char) (a : Char),
    a ∈ l.takeWhile p → p a := by
  intro l
  induction l with
  | nil => intro a h; simp [List.takeWhile] at h
  | cons c rest ih =>
    intro a h
    by_cases hc : p c
    · rw [List.takeWhile_cons_of_pos hc] at h
      rcases List.mem_cons.mp h with h | h
      · exact h ▸ hc
      · exact ih a h
    · rw [List.takeWhile_cons_of_neg hc] at h
      simp at h

theorem tok_shape_aux (f : Nat) : ∀ (s t : List Char), Seg.tok t ∈ findSegsAux f s →
    ∃ d run, t = '%' :: d :: run ∧ isUpperAZ d ∧ run ≠ [] ∧ ∀ c ∈ run, isTokChar c := by
  induction f with
  | zero =>
    intro s t h
    cases s <;> simp [findSegsAux] at h
  | succ f ih =>
    intro s t h
    cases s with
    | nil => simp [findSegsAux_nil] at h
    | cons c rest =>
      by_cases hc : c = '%'
      · subst hc
        cases rest with
        | nil => simp [findSegsAux] at h
        | cons d rest2 =>
          by_cases hd : isUpperAZ d
          · by_cases ht : rest2.takeWhile isTokChar = []
            · rw [show findSegsAux (f+1) ('%' :: d :: rest2) =
                    Seg.lit ['%'] :: findSegsAux f (d :: rest2) by
                  simp [findSegsAux, hd, ht]] at h
              rcases List.mem_cons.mp h with h | h
              · exact absurd h (by simp)
              · exact ih _ _ h
            · rw [show findSegsAux (f+1) ('%' :: d :: rest2) =
                    Seg.tok ('%' :: d :: rest2.takeWhile isTokChar) ::
                      findSegsAux f (rest2.dropWhile isTokChar) by
                  simp [findSegsAux, hd, ht]] at h
              rcases List.mem_cons.mp h with h | h
              · have heq : t = '%' :: d :: rest2.takeWhile isTokChar := by
                  simpa using h
                exact ⟨d, rest2.takeWhile isTokChar, heq, hd, ht,
                  fun c hcmem => mem_takeWhile_sat rest2 c hcmem⟩
              · exact ih _ _ h
          · rw [show findSegsAux (f+1) ('%' :: d :: rest2) =
                  Seg.lit ['%'] :: findSegsAux f (d :: rest2) by
                simp [findSegsAux, hd]] at h
            rcases List.mem_cons.mp h with h | h
            · exact absurd h (by simp)
            · exact ih _ _ h
      · rw [show findSegsAux (f+1) (c :: rest) = Seg.lit [c] :: findSegsAux f rest by
            simp [findSegsAux, hc]] at h
        rcases List.mem_cons.mp h with h | h
        · exact absurd h (by simp)
        · exact ih _ _ h

theorem tok_shape (s t : List Char) (h : Seg.tok t ∈ findSegs s) :
    ∃ d run, t = '%' :: d :: run ∧ isUpperAZ d ∧ run ≠ [] ∧ ∀ c ∈ run, isTokChar c :=
  tok_shape_aux _ s t h

theorem seg_text_infix (segs : List Seg) (sg : Seg) (h : sg ∈ segs) :
    sg.text <:+: segsText segs := by
  induction segs with
  | nil => simp at h
  | cons hd tl ih =>
    rcases List.mem_cons.mp h with h | h
    · subst h
      exact ⟨[], segsText tl, by simp [segsText]⟩
    · have htl := ih h
      have hsuf : segsText tl <:+ segsText (hd :: tl) := by
        simp only [segsText, List.map_cons, List.flatten_cons]
        exact List.suffix_append _ _
      exact htl.trans hsuf.isInfix

/-! ## Claim C1: fallback-token resolution -/

theorem splitOn_no_sep (b : List Char) (hb : '|' ∉ b) : b.splitOn '|' = [b] :=
  List.splitOnP_eq_single _ _ (fun x hx => by
    simp only [beq_iff_eq]
    exact fun he => hb (he ▸ hx))

theorem splitOn_sep (b : List Char) : ∀ a : List Char, '|' ∉ a →
    (a ++ '|' :: b).splitOn '|' = a :: b.splitOn '|' := by
  intro a
  induction a with
  | nil =>
    intro _
    show ('|' :: b).splitOnP (fun c => c == '|') = [] :: b.splitOn '|'
    rw [List.splitOnP_cons, if_pos (by simp)]
    rfl
  | cons c a' ih =>
    intro ha
    have hc : c ≠ '|' := fun he => ha (he ▸ List.mem_cons_self _ _)
    show (c :: (a' ++ '|' :: b)).splitOnP (fun x => x == '|') =
      (c :: a') :: b.splitOn '|'
    rw [List.splitOnP_cons, if_neg (by simp [hc])]
    have ih' := ih (fun hm => ha (List.mem_cons_of_mem _ hm))
    show ((a' ++ '|' :: b).splitOn '|').modifyHead (c :: ·) = _
    rw [ih']
    rfl

/-- C1: a fallback token `%a|b` (the separator occurring nowhere else in it)
is resolved by `format_name` through the candidate chain `[a, b]`, and that
chain resolves to the lookup of `a` whenever that value differs from the
empty placeholder (regardless of `b`); otherwise to the lookup of `b` —
which itself defaults to the placeholder when absent, so when every
candidate resolves to the placeholder the final resolution equals the
placeholder. -/
theorem c1_fallback_resolution (pl : Plist) (empty : String) (a b : List Char)
    (ha : '|' ∉ a) (hb : '|' ∉ b) :
    resolveTok pl empty ('%' :: (a ++ '|' :: b)) = resolveAlts pl empty [a, b] ∧
      resolveAlts pl empty [a, b] =
        (if pget pl (String.mk a) empty ≠ empty then pget pl (String.mk a) empty
         else pget pl (String.mk b) empty) := by
  constructor
  · simp only [resolveTok]
    rw [if_pos (by simp)]
    show resolveAlts pl empty ((a ++ '|' :: b).splitOn '|') = _
    rw [splitOn_sep b a ha, splitOn_no_sep b hb]
  · simp [resolveAlts]

/-- C1 witness: with `{B: "v"}` the token `%A|B` falls back to `B`. -/
theorem c1_fallback_resolution_witness :
    resolveTok [("B", "v")] "" ('%' :: ("A".toList ++ '|' :: "B".toList)) = "v" := by
  have h := c1_fallback_resolution [("B", "v")] "" ("A".toList) ("B".toList)
    (by decide) (by decide)
  rw [h.1, h.2]
  decide

/-! ## Claim C3: the round-trip example -/

/-- C3: `format_name` on the mapping
`{CFBundleName: "Foo App", CFBundleVersion: "2.1", MinimumOSVersion: "14.0"}`
with the default format spec and defaults yields `Foo_App-v2.1-ios14.0.ipa`. -/
theorem c3_default_round_trip :
    format_name [("CFBundleName", "Foo App"), ("CFBundleVersion", "2.1"),
        ("MinimumOSVersion", "14.0")] FORMAT "" "_" ".ipa" =
      "Foo_App-v2.1-ios14.0.ipa" := by
  decide

/-! ## Claim C4: the token pattern -/

/-- C4 counterexample: the regex is `%[A-Z][|a-zA-Z]+` — at least ONE
letter/separator must follow the uppercase letter, so `%A-` (and a trailing
`%A`) is NOT recognized as a token, contrary to the claim's "zero or more". -/
theorem c4_counterexample :
    findTokens ("%A-".toList) = [] ∧ findTokens ("%A".toList) = [] := by
  decide

/-- C4 (amended): every token found by the scanner consists of the marker,
one uppercase letter and a non-empty run of letters or the fallback
separator, and occurs as a substring of the format string; conversely a
string entirely of that shape is recognized as exactly one token. -/
theorem c4_token_pattern :
    (∀ s t : List Char, t ∈ findTokens s →
      (∃ d run, t = '%' :: d :: run ∧ isUpperAZ d ∧ run ≠ [] ∧ ∀ c ∈ run, isTokChar c) ∧
        t <:+: s) ∧
    (∀ (d : Char) (run : List Char), isUpperAZ d → run ≠ [] → (∀ c ∈ run, isTokChar c) →
      findTokens ('%' :: d :: run) = ['%' :: d :: run]) := by
  constructor
  · intro s t ht
    have hmem : Seg.tok t ∈ findSegs s := by
      simp only [findTokens, segTokens, List.mem_filterMap] at ht
      obtain ⟨sg, hsg, hval⟩ := ht
      cases sg with
      | lit cs => simp at hval
      | tok cs => simpa [← Option.some_inj.mp hval] using hsg
    refine ⟨tok_shape s t hmem, ?_⟩
    have := seg_text_infix (findSegs s) (Seg.tok t) hmem
    rwa [Seg.text, segsText_findSegs] at this
  · intro d run hd hrun hall
    have htw : run.takeWhile isTokChar = run := List.takeWhile_eq_self_iff.mpr hall
    have hdw : run.dropWhile isTokChar = [] := List.dropWhile_eq_nil_iff.mpr hall
    have : findSegs ('%' :: d :: run) = [Seg.tok ('%' :: d :: run)] := by
      rw [findSegs_pct_tok d run hd (by rw [htw]; exact hrun)]
      rw [htw, hdw]
      rfl
    simp [findTokens, this, segTokens]

/-- C4 amended witness: the scanner finds the token `%Ab` inside `%Ab-`, it
matches the pattern, and an exact-pattern string such as `%Cd` is exactly one
token. -/
theorem c4_token_pattern_witness :
    (('%' :: 'A' :: ['b']) <:+: "%Ab-".toList) ∧
      findTokens ("%Cd".toList) = ["%Cd".toList] :=
  ⟨(c4_token_pattern.1 ("%Ab-".toList) ('%' :: 'A' :: ['b']) (by decide)).2,
    c4_token_pattern.2 'C' ['d'] (by decide) (by decide) (by decide)⟩

/-! ## Claim C10: displaying all properties -/

theorem pget_cons_self (k v : String) (rest : Plist) :
    pget ((k, v) :: rest) k "" = v := by
  simp [pget, List.find?]

theorem pget_cons_ne (k v k' : String) (rest : Plist) (h : k ≠ k') :
    pget ((k, v) :: rest) k' "" = pget rest k' "" := by
  simp only [pget, List.find?]
  rw [show (k == k') = false from beq_false_of_ne h]

theorem map_pget_of_nodup (pl : Plist) (h : (pl.map Prod.fst).Nodup) :
    (pl.map Prod.fst).map (fun k => k ++ ": " ++ pget pl k "") =
      pl.map (fun kv => kv.1 ++ ": " ++ kv.2) := by
  induction pl with
  | nil => rfl
  | cons kv rest ih =>
    obtain ⟨k, v⟩ := kv
    have hk : k ∉ rest.map Prod.fst := (List.nodup_cons.mp (by simpa using h)).1
    have hrest : (rest.map Prod.fst).Nodup := (List.nodup_cons.mp (by simpa using h)).2
    simp only [List.map_cons]
    refine congrArg₂ _ (by rw [pget_cons_self]) ?_
    rw [List.map_congr_left (fun k' hk' => ?_), ih hrest]
    have hne : k ≠ k' := fun he => hk (he ▸ hk')
    rw [pget_cons_ne k v k' rest hne]

/-- C10: with the `"all"` sentinel, `print_plist` prints one `"k: v"` line
per key of the mapping, in mapping order (keys of a Python dict are unique,
expressed here as the `Nodup` hypothesis on the association list). -/
theorem c10_display_all (pl : Plist) (h : (pl.map Prod.fst).Nodup) :
    print_plist pl "all" " " = pl.map (fun kv => kv.1 ++ ": " ++ kv.2) := by
  have hbr : strContains "all" " " = false := by decide
  simp only [print_plist, hbr, Bool.false_eq_true, if_false]
  have hfilter : (pl.map Prod.fst).filter
      (fun k => ("all" : String) == "all" || strContains k "all") = pl.map Prod.fst := by
    apply List.filter_eq_self.mpr
    intro a _
    simp
  rw [hfilter, map_pget_of_nodup pl h]

/-- C10 witness: a concrete two-key mapping prints both pairs in order. -/
theorem c10_display_all_witness :
    print_plist [("A", "1"), ("B", "2")] "all" " " =
      [("A", "1"), ("B", "2")].map (fun kv => kv.1 ++ ": " ++ kv.2) :=
  c10_display_all [("A", "1"), ("B", "2")] (by decide)

/-! ## Claim C5: missing metadata entry -/

/-- C5: when the archive opens correctly and passes validation, the reader
selects the first entry whose name ends with the plist suffix; when no entry
matches it prints `MetadataNotFound` (`error(3, INFO)`) and returns `None`,
whereupon the main loop skips the file (only the additional `error(5)`
report is printed): the formatter is never invoked and no rename occurs
(the resulting action is `errorSkip`, not `renamed`/`dryRun`). -/
theorem c5_metadata_not_found (ar : Archive) (ipa : String) (key : Option String)
    (dry : Bool) (frm : String) (hopen : ar.openRes = OpenRes.ok)
    (hz : ar.testzip = none) :
    (ar.entries.find? (isPlistEntry INFO) = none →
      ipa_readplist ar ipa INFO = ([Msg.notFound INFO], none) ∧
        processFile ar ipa key dry frm =
          ([Msg.notFound INFO, Msg.emptyPlist ipa], FileAction.errorSkip)) ∧
    (∀ z, ar.entries.find? (isPlistEntry INFO) = some z →
      ipa_readplist ar ipa INFO = ([], some z.data)) := by
  constructor
  · intro hmiss
    have h1 : ipa_readplist ar ipa INFO = ([Msg.notFound INFO], none) := by
      simp only [ipa_readplist, hopen, hz, scanEntries, hmiss]
    exact ⟨h1, by simp [processFile, h1]⟩
  · intro z hfound
    simp only [ipa_readplist, hopen, hz, scanEntries, hfound]

/-- C5 witness: a concrete archive with a single non-plist entry is skipped
with the `not found` and `empty property list` reports. -/
theorem c5_metadata_not_found_witness :
    processFile ⟨OpenRes.ok, none, [⟨"x.png", []⟩]⟩ "a.ipa" none false FORMAT =
      ([Msg.notFound INFO, Msg.emptyPlist "a.ipa"], FileAction.errorSkip) :=
  ((c5_metadata_not_found ⟨OpenRes.ok, none, [⟨"x.png", []⟩]⟩ "a.ipa" none false FORMAT
    rfl rfl).1 (by decide)).2

/-! ## Claim C6: corrupt archive -/

/-- C6 counterexample: `zip.testzip()` naming a failing entry with an EMPTY
name is treated by `if err:` as success — the reader proceeds to the entry
scan and decodes the plist instead of failing with the ZIP error. -/
theorem c6_counterexample :
    ipa_readplist ⟨OpenRes.ok, some "", [⟨"Payload/X.app/Info.plist", [("A", "b")]⟩]⟩
        "x.ipa" INFO = ([], some [("A", "b")]) ∧
      ipa_readplist ⟨OpenRes.ok, some "", [⟨"Payload/X.app/Info.plist", [("A", "b")]⟩]⟩
        "x.ipa" INFO ≠ ([Msg.zipError ""], none) := by
  decide

/-- C6 (amended): when validation reports a failing entry with a NON-empty
name, the reader prints the ZIP error naming that entry and returns `None`;
the entry list is never consulted (the same result arises for any entry
list). -/
theorem c6_corrupt_archive (ar : Archive) (ipa e : String)
    (hopen : ar.openRes = OpenRes.ok) (hfail : ar.testzip = some e) (hne : e ≠ "") :
    ipa_readplist ar ipa INFO = ([Msg.zipError e], none) ∧
      ∀ entries2 : List ZEntry,
        ipa_readplist ⟨OpenRes.ok, some e, entries2⟩ ipa INFO =
          ipa_readplist ar ipa INFO := by
  have h1 : ipa_readplist ar ipa INFO = ([Msg.zipError e], none) := by
    simp only [ipa_readplist, hopen, hfail]
    rw [if_neg hne]
  refine ⟨h1, fun entries2 => ?_⟩
  rw [h1]
  simp only [ipa_readplist]
  rw [if_neg hne]

/-- C6 amended witness: a concrete corrupt archive is reported with its
failing entry name. -/
theorem c6_corrupt_archive_witness :
    ipa_readplist ⟨OpenRes.ok, some "Payload/bad.bin", [⟨"Payload/X.app/Info.plist", []⟩]⟩
        "x.ipa" INFO = ([Msg.zipError "Payload/bad.bin"], none) :=
  (c6_corrupt_archive ⟨OpenRes.ok, some "Payload/bad.bin", [⟨"Payload/X.app/Info.plist", []⟩]⟩
    "x.ipa" "Payload/bad.bin" rfl rfl (by decide)).1

/-! ## Claim C7: empty metadata -/

/-- C7 counterexample: an archive whose `Info.plist` decodes to an EMPTY
(zero-key) mapping is NOT reported as `EmptyMetadata`: the main loop's check
is `if plist is None`, the empty dict passes it, the formatter runs and the
file is renamed (here every token resolves to the placeholder, so the new
name is just the extension). -/
theorem c7_counterexample :
    ipa_readplist ⟨OpenRes.ok, none, [⟨"Payload/App.app/Info.plist", ([] : Plist)⟩]⟩
        "t.ipa" INFO = ([], some []) ∧
      processFile ⟨OpenRes.ok, none, [⟨"Payload/App.app/Info.plist", ([] : Plist)⟩]⟩
          "t.ipa" none false "%CFBundleName" =
        ([], FileAction.renamed "t.ipa" ".ipa") := by
  decide

/-- C7 (amended): the `EmptyMetadata` report (`error(5)`) fires exactly when
`ipa_readplist` returns `None` — that is, on each of its error paths — and
then the formatter is never invoked; when a mapping is returned, even a
zero-key one, the rename path proceeds with the formatted name. -/
theorem c7_empty_metadata (ar : Archive) (ipa : String) (key : Option String)
    (dry : Bool) (frm : String) :
    (∀ msgs, ipa_readplist ar ipa INFO = (msgs, none) →
      processFile ar ipa key dry frm =
        (msgs ++ [Msg.emptyPlist ipa], FileAction.errorSkip)) ∧
    (∀ msgs pl, ipa_readplist ar ipa INFO = (msgs, some pl) →
      processFile ar ipa none false frm =
        (msgs, FileAction.renamed ipa (mkNewname ipa pl frm))) := by
  constructor
  · intro msgs h
    simp [processFile, h]
  · intro msgs pl h
    simp [processFile, h, keyTruthy]

/-- C7 amended witness: a concrete archive with a one-key plist goes down the
rename path with the formatted name. -/
theorem c7_empty_metadata_witness :
    processFile ⟨OpenRes.ok, none, [⟨"P/Info.plist", [("CFBundleName", "X")]⟩]⟩
        "b.ipa" none false "%CFBundleName" =
      ([], FileAction.renamed "b.ipa"
        (mkNewname "b.ipa" [("CFBundleName", "X")] "%CFBundleName")) :=
  (c7_empty_metadata ⟨OpenRes.ok, none, [⟨"P/Info.plist", [("CFBundleName", "X")]⟩]⟩
    "b.ipa" none false "%CFBundleName").2 [] [("CFBundleName", "X")] (by decide)

/-! ## Claim C8 counterexample: non-string values -/

/-- C8 counterexample: a mapping whose value is a number (allowed by the
claim) makes `format_name` raise `TypeError` in `name.replace(token, val, 1)`
instead of substituting the value's string form. -/
theorem c8_counterexample :
    format_name_typed [("Ab", PVal.int 1)] "%Ab" "" "_" ".ipa" =
      Except.error "TypeError: replace() argument 2 must be str" := by
  rfl

/-! ## Claim C8 (amended): all-string mappings format successfully -/

theorem tget_proj : ∀ pl : TPlist, (∀ kv ∈ pl, isStrVal kv.2) → ∀ k e : String,
    tgetVal pl k e = PVal.str (pget (projStr pl) k e) := by
  intro pl
  induction pl with
  | nil => intro _ k e; rfl
  | cons kv rest ih =>
    intro h k e
    obtain ⟨k0, v0⟩ := kv
    have hstr : isStrVal v0 := h (k0, v0) (List.mem_cons_self _ _)
    obtain ⟨s0, hs0⟩ : ∃ s, v0 = PVal.str s := by
      cases v0 with
      | str s => exact ⟨s, rfl⟩
      | int n => simp [isStrVal] at hstr
      | boolean b => simp [isStrVal] at hstr
      | date d => simp [isStrVal] at hstr
    subst hs0
    cases hbeq : (k0 == k) with
    | true => simp [tgetVal, pget, projStr, List.find?, hbeq]
    | false =>
      have ih' := ih (fun kv hkv => h kv (List.mem_cons_of_mem _ hkv)) k e
      simp only [tgetVal, pget, projStr, List.map_cons, List.find?, hbeq] at ih' ⊢
      exact ih'

theorem resolveAltsT_proj (pl : TPlist) (h : ∀ kv ∈ pl, isStrVal kv.2) (e : String) :
    ∀ l : List (List Char),
      resolveAltsT pl e l = PVal.str (resolveAlts (projStr pl) e l) := by
  intro l
  induction l with
  | nil => rfl
  | cons s rest ih =>
    cases rest with
    | nil => simp [resolveAltsT, resolveAlts, tget_proj pl h]
    | cons s' rest' =>
      simp only [resolveAltsT, resolveAlts, tget_proj pl h, pvalNeStr]
      by_cases hx : pget (projStr pl) (String.mk s) e = e
      · simp [hx, ih]
      · simp [hx, bne_iff_ne.mpr hx]

theorem resolveTokT_proj (pl : TPlist) (h : ∀ kv ∈ pl, isStrVal kv.2) (e : String)
    (t : List Char) :
    resolveTokT pl e t = PVal.str (resolveTok (projStr pl) e t) := by
  simp only [resolveTokT, resolveTok]
  by_cases hbar : '|' ∈ t
  · simp [hbar, resolveAltsT_proj pl h]
  · simp [hbar, tget_proj pl h]

theorem substTokensT_proj (pl : TPlist) (h : ∀ kv ∈ pl, isStrVal kv.2) (e : String) :
    ∀ (ts : List (List Char)) (name : List Char),
      substTokensT pl e name ts = Except.ok (substTokens (projStr pl) e name ts) := by
  intro ts
  induction ts with
  | nil => intro name; rfl
  | cons t ts ih =>
    intro name
    simp only [substTokensT, substTokens, resolveTokT_proj pl h e t]
    exact ih _

/-- C8 (amended): for every mapping whose values are all strings, the typed
formatter succeeds and agrees with the string-valued `format_name`; a
non-string value reached by a token raises `TypeError`
(see the counterexample). -/
theorem c8_string_values (pl : TPlist) (format empty space ext : String)
    (h : ∀ kv ∈ pl, isStrVal kv.2) :
    format_name_typed pl format empty space ext =
      Except.ok (format_name (projStr pl) format empty space ext) := by
  simp only [format_name_typed, format_name, substTokensT_proj pl h]

/-- C8 amended witness: a concrete all-string mapping formats successfully. -/
theorem c8_string_values_witness :
    format_name_typed [("Ab", PVal.str "x y")] "%Ab" "" "_" ".ipa" =
      Except.ok (format_name (projStr [("Ab", PVal.str "x y")]) "%Ab" "" "_" ".ipa") :=
  c8_string_values [("Ab", PVal.str "x y")] "%Ab" "" "_" ".ipa" (by decide)

/-! ## Claim C9: the rename destination -/

theorem replAllAux_trivial (pat rep : List Char) (f : Nat) : replAllAux pat rep f [] = [] := by
  cases f <;> rfl

theorem replAllAux_no_match (pat rep : List Char) :
    ∀ dir s : List Char, (∀ suf, suf ≠ [] → suf <:+ dir → ¬ pat.isPrefixOf (suf ++ s)) →
      replAllAux pat rep (dir ++ s).length (dir ++ s) = dir ++ replAllAux pat rep s.length s := by
  intro dir
  induction dir with
  | nil => intro s _; rfl
  | cons c dir' ih =>
    intro s h
    have hnp : ¬ pat.isPrefixOf (c :: (dir' ++ s)) := by
      have := h (c :: dir') (List.cons_ne_nil _ _) (List.suffix_refl _)
      simpa using this
    have h' : ∀ suf, suf ≠ [] → suf <:+ dir' → ¬ pat.isPrefixOf (suf ++ s) :=
      fun suf hs hsuf => h suf hs (hsuf.trans (List.suffix_cons c dir'))
    show replAllAux pat rep ((dir' ++ s).length + 1) (c :: (dir' ++ s)) = _
    simp only [replAllAux]
    rw [if_neg hnp, ih s h']
    rfl

theorem replaceAll_strip (dir base rep : List Char) (hb : base ≠ [])
    (h : ∀ suf, suf ≠ [] → suf <:+ dir → ¬ base.isPrefixOf (suf ++ base)) :
    replaceAll (dir ++ base) base rep = dir ++ rep := by
  obtain ⟨b, bs, rfl⟩ : ∃ b bs, base = b :: bs := by
    cases base with
    | nil => exact absurd rfl hb
    | cons b bs => exact ⟨b, bs, rfl⟩
  show replAllAux (b :: bs) rep (dir ++ b :: bs).length (dir ++ b :: bs) = dir ++ rep
  rw [replAllAux_no_match (b :: bs) rep dir (b :: bs) h]
  congr 1
  show replAllAux (b :: bs) rep (bs.length + 1) (b :: bs) = rep
  simp only [replAllAux]
  rw [if_pos (List.isPrefixOf_iff_prefix.mpr (List.prefix_refl _))]
  rw [show (b :: bs).drop (b :: bs).length = [] from List.drop_length _]
  rw [replAllAux_trivial]
  exact List.append_nil rep

theorem no_occurrence_in_dir (dir base : List Char)
    (hslash : '/' ∉ base) (hlast : dir = [] ∨ dir.getLast? = some '/')
    (hninf : ¬ base <:+: dir) :
    ∀ suf, suf ≠ [] → suf <:+ dir → ¬ base.isPrefixOf (suf ++ base) := by
  intro suf hsne hsuf hpre
  have hpre' : base <+: suf ++ base := List.isPrefixOf_iff_prefix.mp hpre
  by_cases hle : base.length ≤ suf.length
  · have h1 : base <+: suf :=
      List.prefix_of_prefix_length_le hpre' (List.prefix_append suf base) hle
    exact hninf (h1.isInfix.trans hsuf.isInfix)
  · have h2 : suf <+: base :=
      List.prefix_of_prefix_length_le (List.prefix_append suf base) hpre'
        (Nat.le_of_lt (Nat.lt_of_not_le hle))
    have hdirne : dir ≠ [] := by
      intro h0
      rw [h0] at hsuf
      exact hsne (List.suffix_nil.mp hsuf)
    have hl : dir.getLast? = some '/' := hlast.resolve_left hdirne
    obtain ⟨pre, rfl⟩ := hsuf
    rw [List.getLast?_append_of_ne_nil pre hsne] at hl
    exact hslash (h2.subset (List.mem_of_mem_getLast? (by simp [hl])))

theorem dropWhile_head_not (p : Char → Bool) :
    ∀ (l : List Char) (c : Char) (rest : List Char),
      l.dropWhile p = c :: rest → p c = false := by
  intro l
  induction l with
  | nil => intro c rest h; simp [List.dropWhile] at h
  | cons a l' ih =>
    intro c rest h
    by_cases ha : p a
    · rw [List.dropWhile_cons_of_pos ha] at h
      exact ih c rest h
    · rw [List.dropWhile_cons_of_neg ha] at h
      cases h
      exact Bool.not_eq_true _ ▸ (by simpa using ha)

theorem dir_base_split (s : String) :
    s.toList = (dirnameOf s).toList ++ (basenameOf s).toList := by
  show s.toList =
    (s.toList.reverse.dropWhile (fun c => c ≠ '/')).reverse ++
      (s.toList.reverse.takeWhile (fun c => c ≠ '/')).reverse
  rw [← List.reverse_append, List.takeWhile_append_dropWhile, List.reverse_reverse]

theorem slash_not_mem_basename (s : String) : '/' ∉ (basenameOf s).toList := by
  intro h
  have h' : '/' ∈ s.toList.reverse.takeWhile (fun c => decide (c ≠ '/')) := by
    have : (basenameOf s).toList =
        (s.toList.reverse.takeWhile (fun c => decide (c ≠ '/'))).reverse := rfl
    rw [this] at h
    exact List.mem_reverse.mp h
  have := mem_takeWhile_sat _ _ h'
  simp at this

theorem getLast?_snoc (a : Char) (l : List Char) : (l ++ [a]).getLast? = some a :=
  List.getLast?_concat l

theorem dirname_last_slash (s : String) :
    (dirnameOf s).toList = [] ∨ (dirnameOf s).toList.getLast? = some '/' := by
  cases hl : s.toList.reverse.dropWhile (fun c => decide (c ≠ '/')) with
  | nil =>
    left
    show (s.toList.reverse.dropWhile (fun c => decide (c ≠ '/'))).reverse = []
    rw [hl]
    rfl
  | cons c rest =>
    right
    have hc : (fun c => decide (c ≠ '/')) c = false := dropWhile_head_not _ _ c rest hl
    have hc' : c = '/' := by simpa using hc
    show ((s.toList.reverse.dropWhile (fun c => decide (c ≠ '/'))).reverse).getLast? =
      some '/'
    rw [hl, List.reverse_cons, getLast?_snoc, hc']

/-- C9 counterexample: for the source path `ab/ab` the directory component
contains the base filename as a substring, and `str.replace` rewrites both
occurrences: the destination is `x.ipa/x.ipa`, not the claimed
directory-preserving `ab/x.ipa`. -/
theorem c9_counterexample :
    mkNewname "ab/ab" [("Ab", "x")] "%Ab" = "x.ipa/x.ipa" ∧
      mkNewname "ab/ab" [("Ab", "x")] "%Ab" ≠
        dirnameOf "ab/ab" ++ format_name [("Ab", "x")] "%Ab" "" "_" ".ipa" := by
  decide

/-- C9 (amended): when the base filename does not occur inside the directory
prefix (and is non-empty), the destination equals the directory prefix
followed by the formatted name — `str.replace` then rewrites exactly the
final basename occurrence.  (When the directory prefix does contain the
basename, every occurrence is rewritten; see the counterexample.) -/
theorem c9_rename_dest (ipa : String) (pl : Plist) (frm : String)
    (hne : basenameOf ipa ≠ "")
    (hninf : ¬ ((basenameOf ipa).toList <:+: (dirnameOf ipa).toList)) :
    mkNewname ipa pl frm = dirnameOf ipa ++ format_name pl frm "" "_" ".ipa" := by
  have hb : (basenameOf ipa).toList ≠ [] := by
    intro h0
    apply hne
    calc basenameOf ipa = String.mk ((basenameOf ipa).data) := rfl
      _ = String.mk [] := by rw [show (basenameOf ipa).data = ([] : List Char) from h0]
      _ = "" := rfl
  unfold mkNewname
  rw [dir_base_split ipa]
  rw [replaceAll_strip _ _ _ hb
    (no_occurrence_in_dir (dirnameOf ipa).toList (basenameOf ipa).toList
      (slash_not_mem_basename ipa) (dirname_last_slash ipa) hninf)]
  rfl

/-- C9 amended witness: for a path with a normal directory prefix, the prefix
is preserved and only the basename is replaced by the formatted name. -/
theorem c9_rename_dest_witness :
    mkNewname "NAS/apps/ttb.ipa" [("CFBundleName", "tt")] "%CFBundleName" =
      dirnameOf "NAS/apps/ttb.ipa" ++
        format_name [("CFBundleName", "tt")] "%CFBundleName" "" "_" ".ipa" :=
  c9_rename_dest "NAS/apps/ttb.ipa" [("CFBundleName", "tt")] "%CFBundleName"
    (by decide) (by decide)

/-! ## Claim C2: single-token format specs -/

theorem mem_segTokens (segs : List Seg) (t : List Char) :
    t ∈ segTokens segs ↔ Seg.tok t ∈ segs := by
  simp only [segTokens, List.mem_filterMap]
  constructor
  · rintro ⟨sg, hsg, hval⟩
    cases sg with
    | lit cs => simp at hval
    | tok cs => exact (Option.some_inj.mp hval) ▸ hsg
  · intro h
    exact ⟨Seg.tok t, h, rfl⟩

theorem replaceFirst_append (t : List Char) (ht : ∃ tt, t = '%' :: tt) :
    ∀ (pre suf rep : List Char), '%' ∉ pre →
      replaceFirst (pre ++ (t ++ suf)) t rep = pre ++ (rep ++ suf) := by
  obtain ⟨tt, rfl⟩ := ht
  intro pre
  induction pre with
  | nil =>
    intro suf rep _
    show replFirstAux ('%' :: tt) rep ('%' :: (tt ++ suf)) = rep ++ suf
    simp only [replFirstAux]
    rw [if_pos (List.isPrefixOf_iff_prefix.mpr ⟨suf, by simp⟩)]
    congr 1
    exact List.drop_left ('%' :: tt) suf
  | cons c pre' ih =>
    intro suf rep hpre
    have hc : c ≠ '%' := fun he => hpre (he ▸ List.mem_cons_self c pre')
    show replFirstAux ('%' :: tt) rep (c :: (pre' ++ ('%' :: tt ++ suf))) =
      c :: (pre' ++ (rep ++ suf))
    simp only [replFirstAux]
    rw [if_neg ?hnp]
    · exact congrArg (c :: ·) (ih suf rep (fun hm => hpre (List.mem_cons_of_mem c hm)))
    case hnp =>
      intro hp
      obtain ⟨r, hr⟩ := List.isPrefixOf_iff_prefix.mp hp
      rw [List.cons_append] at hr
      injection hr with h1 _
      exact hc h1.symm

theorem substTokens_render (pl : Plist) (e : String) :
    ∀ (segs : List Seg) (pre : List Char), '%' ∉ pre →
      (∀ cs, Seg.lit cs ∈ segs → '%' ∉ cs) →
      (∀ t, Seg.tok t ∈ segs → ∃ tt, t = '%' :: tt) →
      (∀ t, Seg.tok t ∈ segs → '%' ∉ (resolveTok pl e t).toList) →
      substTokens pl e (pre ++ segsText segs) (segTokens segs) =
        pre ++ renderResolved pl e segs := by
  intro segs
  induction segs with
  | nil =>
    intro pre _ _ _ _
    simp [substTokens, segsText, segTokens, renderResolved]
  | cons sg rest ih =>
    intro pre hpre hlits htoks hvals
    cases sg with
    | lit cs =>
      have hcs : '%' ∉ cs := hlits cs (List.mem_cons_self _ _)
      have hpre' : '%' ∉ pre ++ cs := by
        intro hm
        rcases List.mem_append.mp hm with hm | hm
        · exact hpre hm
        · exact hcs hm
      have step := ih (pre ++ cs) hpre'
        (fun cs' h => hlits cs' (List.mem_cons_of_mem _ h))
        (fun t h => htoks t (List.mem_cons_of_mem _ h))
        (fun t h => hvals t (List.mem_cons_of_mem _ h))
      calc substTokens pl e (pre ++ segsText (Seg.lit cs :: rest))
            (segTokens (Seg.lit cs :: rest))
          = substTokens pl e ((pre ++ cs) ++ segsText rest) (segTokens rest) := by
            rw [segsText_cons, ← List.append_assoc]
            rfl
        _ = (pre ++ cs) ++ renderResolved pl e rest := step
        _ = pre ++ renderResolved pl e (Seg.lit cs :: rest) := by
            rw [List.append_assoc]
            rfl
    | tok t =>
      have ht : ∃ tt, t = '%' :: tt := htoks t (List.mem_cons_self _ _)
      have hv : '%' ∉ (resolveTok pl e t).toList := hvals t (List.mem_cons_self _ _)
      have hpre' : '%' ∉ pre ++ (resolveTok pl e t).toList := by
        intro hm
        rcases List.mem_append.mp hm with hm | hm
        · exact hpre hm
        · exact hv hm
      have step := ih (pre ++ (resolveTok pl e t).toList) hpre'
        (fun cs' h => hlits cs' (List.mem_cons_of_mem _ h))
        (fun t' h => htoks t' (List.mem_cons_of_mem _ h))
        (fun t' h => hvals t' (List.mem_cons_of_mem _ h))
      calc substTokens pl e (pre ++ segsText (Seg.tok t :: rest))
            (segTokens (Seg.tok t :: rest))
          = substTokens pl e
              (replaceFirst (pre ++ (t ++ segsText rest)) t (resolveTok pl e t).toList)
              (segTokens rest) := by
            rw [segsText_cons]
            rfl
        _ = substTokens pl e ((pre ++ (resolveTok pl e t).toList) ++ segsText rest)
              (segTokens rest) := by
            rw [replaceFirst_append t ht pre (segsText rest) _ hpre, List.append_assoc]
        _ = (pre ++ (resolveTok pl e t).toList) ++ renderResolved pl e rest := step
        _ = pre ++ renderResolved pl e (Seg.tok t :: rest) := by
            rw [List.append_assoc]
            rfl

theorem renderResolved_eq_spec (pl : Plist) (e : String) (segs : List Seg)
    (hsingle : ∀ t, Seg.tok t ∈ segs → '|' ∉ t) :
    renderResolved pl e segs = renderSpec pl e segs := by
  simp only [renderResolved, renderSpec]
  congr 1
  apply List.map_congr_left
  intro sg hsg
  cases sg with
  | lit cs => rfl
  | tok t =>
    have hbar : '|' ∉ t := hsingle t hsg
    simp only [resolveTok]
    rw [if_neg (by simpa using hbar)]

/-- C2 counterexample: with the mapping value `x%Ab` (present, and the format
spec's tokens all single), the source's sequential first-occurrence
replacement rewrites text that an earlier substitution introduced, so the
output differs from "the format spec with each token replaced by its mapping
value". -/
theorem c2_counterexample :
    findTokens ("%Ab-%Ab".toList) = ["%Ab".toList, "%Ab".toList] ∧
      format_name [("Ab", "x%Ab")] "%Ab-%Ab" "" "_" ".ipa" = "xx%Ab-%Ab.ipa" ∧
      specFormatName [("Ab", "x%Ab")] "%Ab-%Ab" "" "_" ".ipa" = "x%Ab-x%Ab.ipa" ∧
      format_name [("Ab", "x%Ab")] "%Ab-%Ab" "" "_" ".ipa" ≠
        specFormatName [("Ab", "x%Ab")] "%Ab-%Ab" "" "_" ".ipa" := by
  decide

/-- C2 (amended): for every mapping and format spec whose tokens are all
single (fallback-free) and resolve to values present in the mapping,
`format_name` output equals the format spec with each token replaced by its
mapping value, spaces converted, extension appended — provided the marker
character occurs in no mapping value and, within the format spec, only as
token markers (otherwise a substituted value can be rewritten again; see the
counterexample). -/
theorem c2_single_token_substitution (pl : Plist) (format empty space ext : String)
    (hsingle : ∀ t ∈ findTokens format.toList, '|' ∉ t)
    (hres : ∀ t ∈ findTokens format.toList,
      (pl.find? (fun kv => kv.1 == String.mk (t.drop 1))).isSome)
    (hvals : ∀ kv ∈ pl, '%' ∉ kv.2.toList)
    (hclean : ∀ sg ∈ findSegs format.toList, segLitClean sg) :
    format_name pl format empty space ext = specFormatName pl format empty space ext := by
  have hlits : ∀ cs, Seg.lit cs ∈ findSegs format.toList → '%' ∉ cs := by
    intro cs hmem hpc
    have := hclean _ hmem
    simp only [segLitClean, Bool.not_eq_true'] at this
    exact absurd hpc (by simpa using this)
  have htoks : ∀ t, Seg.tok t ∈ findSegs format.toList → ∃ tt, t = '%' :: tt := by
    intro t hmem
    obtain ⟨d, run, heq, _, _, _⟩ := tok_shape _ t hmem
    exact ⟨d :: run, heq⟩
  have hsingle' : ∀ t, Seg.tok t ∈ findSegs format.toList → '|' ∉ t :=
    fun t hmem => hsingle t ((mem_segTokens _ t).mpr hmem)
  have hvtok : ∀ t, Seg.tok t ∈ findSegs format.toList →
      '%' ∉ (resolveTok pl empty t).toList := by
    intro t hmem
    have hbar : '|' ∉ t := hsingle' t hmem
    have hr := hres t ((mem_segTokens _ t).mpr hmem)
    obtain ⟨kv, hkv⟩ := Option.isSome_iff_exists.mp hr
    have hkvmem : kv ∈ pl := List.mem_of_find?_eq_some hkv
    have : resolveTok pl empty t = kv.2 := by
      simp only [resolveTok]
      rw [if_neg (by simpa using hbar)]
      simp only [pget, hkv]
    rw [this]
    exact hvals kv hkvmem
  have key : substTokens pl empty (segsText (findSegs format.toList))
      (segTokens (findSegs format.toList)) =
        renderResolved pl empty (findSegs format.toList) :=
    substTokens_render pl empty (findSegs format.toList) [] (by simp)
      hlits htoks hvtok
  rw [segsText_findSegs] at key
  simp only [format_name, specFormatName, findTokens]
  rw [key, renderResolved_eq_spec pl empty _ hsingle']

/-- C2 amended witness: a single-token spec with a space-bearing present
value formats to the simultaneous substitution. -/
theorem c2_single_token_substitution_witness :
    format_name [("Ab", "x y")] "u%Ab w" "" "_" ".ipa" =
      specFormatName [("Ab", "x y")] "u%Ab w" "" "_" ".ipa" :=
  c2_single_token_substitution [("Ab", "x y")] "u%Ab w" "" "_" ".ipa"
    (by decide) (by decide) (by decide) (by decide)

end IpaRename
